import Mathlib

/-!
Verification of the `wire` text-transformation toolkit (`src/wire.hpp`).

Strings are embedded as `List Char` (byte strings of the C++ code; embedded
NUL characters, which would truncate the C views produced by `c_str()`, are
excluded by hypotheses where relevant).  Code that can throw is embedded with
`Except`.  `wire::eval`, `wire::translate`, `wire::extract` and `wire::locate`
are only declared in `src/wire.hpp` (lines 79 and 784-786); their definitions
(the repository's `wire.cpp`) are not under `src/`, so those functions are
modelled from the spec, as marked in their doc comments.
-/

namespace Wire

/-! ### `wire::string::replace_map` (src/wire.hpp:513-547)

`replace_map` receives a `std::map<std::string,std::string>` and iterates it
with `rbegin()/rend()`.  A `std::map` keeps its entries sorted by
`std::string::operator<` (lexicographic, a proper prefix comparing less), so
reverse iteration visits rules in descending lexicographic order of their
patterns.  We embed the map as the sorted association list built by repeated
insertion (`mapInsert`/`mapOfList`), and the scan itself as
`findRule`/`replace_map`.

At each input position the code tries each rule `(target, replacement)` in
reverse map order: when `size() - i >= target.size()` holds it evaluates
`memcmp(&at(i), &target.at(0), target.size())`.  For an empty `target`,
`target.at(0)` throws `std::out_of_range`; this is embedded as
`Except.error ()`. -/

/-- `std::string::operator<`: lexicographic comparison, a proper prefix
compares less than the longer string. -/
def strLt : List Char → List Char → Bool
  | [], [] => false
  | [], _ :: _ => true
  | _ :: _, [] => false
  | a :: as, b :: bs => if a < b then true else if b < a then false else strLt as bs

/-- `std::map` insertion (`map[key] = value`): keep entries sorted by `strLt`
on the key, overwrite the value when the key is already present. -/
def mapInsert (k v : List Char) : List (List Char × List Char) → List (List Char × List Char)
  | [] => [(k, v)]
  | (k', v') :: rest =>
    if strLt k k' then (k, v) :: (k', v') :: rest
    else if strLt k' k then (k', v') :: mapInsert k v rest
    else (k', v) :: rest

/-- The `std::map` obtained by registering the rules of `regs` in order. -/
def mapOfList (regs : List (List Char × List Char)) : List (List Char × List Char) :=
  regs.foldl (fun m kv => mapInsert kv.1 kv.2 m) []

/-- The inner rule loop of `replace_map` at one scan position: try each rule
in the given iteration order; a rule is examined only when
`rem.length ≥ target.length`; an empty target then reaches `target.at(0)`,
which throws (`Except.error`); otherwise the `memcmp` is a prefix test and
the first rule whose pattern starts at this position is returned. -/
def findRule : List (List Char × List Char) → List Char → Except Unit (Option (List Char × List Char))
  | [], _ => .ok none
  | (t, r) :: rest, rem =>
    if rem.length ≥ t.length then
      if t = [] then .error ()
      else if t.isPrefixOf rem then .ok (some (t, r))
      else findRule rest rem
    else findRule rest rem

theorem findRule_ok_some {rules : List (List Char × List Char)} {rem t r}
    (h : findRule rules rem = .ok (some (t, r))) :
    t ≠ [] ∧ t.length ≤ rem.length ∧ t <+: rem := by
  induction rules with
  | nil => simp [findRule] at h
  | cons hd tl ih =>
    obtain ⟨t', r'⟩ := hd
    simp only [findRule] at h
    split_ifs at h with h1 h2 h3 <;>
      first
        | exact ih h
        | (rw [Except.ok.injEq, Option.some.injEq, Prod.mk.injEq] at h
           obtain ⟨ht, hr⟩ := h
           subst ht
           exact ⟨h2, h1, List.isPrefixOf_iff_prefix.1 h3⟩)
        | cases h

/-- The scan loop of `replace_map` (src/wire.hpp:517-544): at each position
apply the first matching rule (in reverse map order) and skip its pattern,
or copy one character.  The `std::out_of_range` thrown by an empty pattern
propagates as `Except.error`.  In the applying branch `t` is never empty
(`findRule` raises on empty targets), so `rest.drop (t.length - 1)` is the
code's `i += target.size()`, i.e. `(c :: rest).drop t.length`; this spelling
keeps the decrease in length independent of that fact. -/
def replace_map (rules : List (List Char × List Char)) : List Char → Except Unit (List Char)
  | [] => .ok []
  | c :: rest =>
    match findRule rules (c :: rest) with
    | .error _ => .error ()
    | .ok none => (replace_map rules rest).map (c :: ·)
    | .ok (some (t, r)) => (replace_map rules (rest.drop (t.length - 1))).map (r ++ ·)
termination_by s => s.length
decreasing_by
  · simp only [List.length_cons]
    omega
  · simp only [List.length_drop, List.length_cons]
    omega

theorem exceptMap_ok {ε α β : Type} (f : α → β) (a : α) :
    (Except.ok a : Except ε α).map f = .ok (f a) := rfl

theorem exceptMap_error {ε α β : Type} (f : α → β) (e : ε) :
    (Except.error e : Except ε α).map f = .error e := rfl

theorem replace_map_nil (rules : List (List Char × List Char)) :
    replace_map rules [] = .ok [] := by
  conv_lhs => rw [replace_map.eq_def]

theorem replace_map_cons_eq (rules : List (List Char × List Char)) (c : Char) (rest : List Char) :
    replace_map rules (c :: rest) =
      match findRule rules (c :: rest) with
      | .error _ => .error ()
      | .ok none => (replace_map rules rest).map (c :: ·)
      | .ok (some (t, r)) => (replace_map rules (rest.drop (t.length - 1))).map (r ++ ·) := by
  conv_lhs => rw [replace_map.eq_def]

theorem replace_map_cons_found {rules : List (List Char × List Char)} {c : Char} {rest t r}
    (h : findRule rules (c :: rest) = .ok (some (t, r))) :
    replace_map rules (c :: rest) = (replace_map rules ((c :: rest).drop t.length)).map (r ++ ·) := by
  have ht := findRule_ok_some h
  have hlen : t.length ≠ 0 := fun hh => ht.1 (List.length_eq_zero.1 hh)
  have hdrop : (c :: rest).drop t.length = rest.drop (t.length - 1) := by
    cases hl : t.length with
    | zero => exact absurd hl hlen
    | succ n => simp [List.drop_succ_cons]
  rw [replace_map_cons_eq, h, hdrop]

theorem replace_map_cons_none {rules : List (List Char × List Char)} {c : Char} {rest}
    (h : findRule rules (c :: rest) = .ok none) :
    replace_map rules (c :: rest) = (replace_map rules rest).map (c :: ·) := by
  rw [replace_map_cons_eq, h]

theorem replace_map_cons_error {rules : List (List Char × List Char)} {c : Char} {rest}
    (h : findRule rules (c :: rest) = .error ()) :
    replace_map rules (c :: rest) = .error () := by
  rw [replace_map_cons_eq, h]

theorem replace_map_nil_rules : ∀ s : List Char, replace_map [] s = .ok s := by
  intro s
  induction s with
  | nil => exact replace_map_nil []
  | cons c rest ih =>
    rw [replace_map_cons_none (by rfl)]
    rw [ih]
    rfl

/-- `text.replace_map(rules)` after registering the rules of `regs` (in that
order) into a `std::map`. -/
def wireSubstitute (s : List Char) (regs : List (List Char × List Char)) : Except Unit (List Char) :=
  replace_map (mapOfList regs).reverse s

/-- The substitutor as the spec's words describe it: rules are tried at each
scan position from most-recently-registered to least-recently-registered and
the first match wins.  This definition follows the spec's words only; it is
used to compare the claimed behaviour with the code's (`wireSubstitute`). -/
def specSubstitute (s : List Char) (regs : List (List Char × List Char)) : Except Unit (List Char) :=
  replace_map regs.reverse s

/-! ### Order facts about `strLt` and sortedness of the embedded map -/

theorem strLt_trans : ∀ {a b c : List Char}, strLt a b = true → strLt b c = true → strLt a c = true
  | [], [], _, hab, _ => by simp [strLt] at hab
  | [], _ :: _, [], _, hbc => by simp [strLt] at hbc
  | [], _ :: _, _ :: _, _, _ => by simp [strLt]
  | _ :: _, [], _, hab, _ => by simp [strLt] at hab
  | _ :: _, _ :: _, [], _, hbc => by simp [strLt] at hbc
  | a :: as, b :: bs, c :: cs, hab, hbc => by
    simp only [strLt] at hab hbc ⊢
    rcases lt_trichotomy a b with h1 | h1 | h1
    · rcases lt_trichotomy b c with h2 | h2 | h2
      · rw [if_pos (lt_trans h1 h2)]
      · subst h2
        rw [if_pos h1]
      · rw [if_neg (lt_asymm h2), if_pos h2] at hbc
        cases hbc
    · subst h1
      rw [if_neg (lt_irrefl a), if_neg (lt_irrefl a)] at hab
      rcases lt_trichotomy a c with h2 | h2 | h2
      · rw [if_pos h2]
      · subst h2
        rw [if_neg (lt_irrefl a), if_neg (lt_irrefl a)] at hbc ⊢
        exact strLt_trans hab hbc
      · rw [if_neg (lt_asymm h2), if_pos h2] at hbc
        cases hbc
    · rw [if_neg (lt_asymm h1), if_pos h1] at hab
      cases hab
  termination_by a b c => a.length

theorem mapInsert_key_mem {k v : List Char} :
    ∀ {m : List (List Char × List Char)} {e : List Char × List Char},
      e ∈ mapInsert k v m → e.1 = k ∨ e.1 ∈ m.map Prod.fst
  | [], e, he => by
    simp [mapInsert] at he
    simp [he]
  | (k', v') :: rest, e, he => by
    simp only [mapInsert] at he
    split_ifs at he with h1 h2
    · rcases List.mem_cons.1 he with h | h
      · simp [h]
      · rcases List.mem_cons.1 h with h' | h'
        · simp [h']
        · exact Or.inr (by simp; right; exact ⟨e.2, by simpa using h'⟩)
    · rcases List.mem_cons.1 he with h | h
      · simp [h]
      · rcases mapInsert_key_mem h with h' | h'
        · exact Or.inl h'
        · exact Or.inr (by simp at h' ⊢; tauto)
    · rcases List.mem_cons.1 he with h | h
      · simp [h]
      · exact Or.inr (by simp; right; exact ⟨e.2, by simpa using h⟩)

theorem mapInsert_sorted {k v : List Char} :
    ∀ {m : List (List Char × List Char)},
      m.Pairwise (fun a b => strLt a.1 b.1 = true) →
      (mapInsert k v m).Pairwise (fun a b => strLt a.1 b.1 = true)
  | [], _ => by simp [mapInsert]
  | (k', v') :: rest, hm => by
    rw [List.pairwise_cons] at hm
    obtain ⟨hk', hrest⟩ := hm
    simp only [mapInsert]
    split_ifs with h1 h2
    · refine List.Pairwise.cons ?_ (List.Pairwise.cons hk' hrest)
      intro e he
      rcases List.mem_cons.1 he with h | h
      · simp [h, h1]
      · exact strLt_trans h1 (hk' e h)
    · refine List.Pairwise.cons ?_ (mapInsert_sorted hrest)
      intro e he
      rcases mapInsert_key_mem he with h | h
      · rw [h]; exact h2
      · obtain ⟨e2, he2⟩ : ∃ x, (e.1, x) ∈ rest := by
          rcases List.mem_map.1 h with ⟨p, hp, hpe⟩
          refine ⟨p.2, ?_⟩
          rw [← hpe]
          exact hp
        simpa using hk' (e.1, e2) he2
    · exact List.Pairwise.cons (fun e he => hk' (e.1, e.2) (by simpa using he)) hrest

theorem mapOfList_sorted (regs : List (List Char × List Char)) :
    (mapOfList regs).Pairwise (fun a b => strLt a.1 b.1 = true) := by
  suffices h : ∀ (regs m0 : List (List Char × List Char)),
      m0.Pairwise (fun a b => strLt a.1 b.1 = true) →
      (regs.foldl (fun m kv => mapInsert kv.1 kv.2 m) m0).Pairwise
        (fun a b => strLt a.1 b.1 = true) by
    exact h regs [] (by simp)
  intro regs
  induction regs with
  | nil => exact fun m0 h => h
  | cons hd tl ih => exact fun m0 h => ih _ (mapInsert_sorted h)

/-! ### First-match behaviour of the rule loop -/

/-- A rule "hits" at a scan position when its length check passes and its
pattern starts the remaining input; the loop stops trying further rules
exactly there (an empty pattern that reaches its check always "hits" — and
then throws). -/
theorem findRule_append_skip {rem : List Char} :
    ∀ {pre rules : List (List Char × List Char)},
      (∀ tr ∈ pre, ¬(tr.1.length ≤ rem.length ∧ tr.1 <+: rem)) →
      findRule (pre ++ rules) rem = findRule rules rem
  | [], rules, _ => rfl
  | (t', r') :: pre, rules, hpre => by
    have ht' := hpre (t', r') (by simp)
    simp only [List.cons_append, findRule]
    split_ifs with h1 h2 h3
    · exact absurd ⟨h1, by simp [h2]⟩ ht'
    · exact absurd ⟨h1, List.isPrefixOf_iff_prefix.1 h3⟩ ht'
    · exact findRule_append_skip fun tr htr => hpre tr (List.mem_cons_of_mem _ htr)
    · exact findRule_append_skip fun tr htr => hpre tr (List.mem_cons_of_mem _ htr)

theorem findRule_cons_hit {t r : List Char} {rules : List (List Char × List Char)} {rem : List Char}
    (hne : t ≠ []) (hpre : t <+: rem) :
    findRule ((t, r) :: rules) rem = .ok (some (t, r)) := by
  simp only [findRule]
  rw [if_pos hpre.length_le, if_neg hne, if_pos (List.isPrefixOf_iff_prefix.2 hpre)]

theorem strLt_irrefl : ∀ p : List Char, strLt p p = false
  | [] => rfl
  | a :: as => by
    simp only [strLt]
    rw [if_neg (lt_irrefl a), if_neg (lt_irrefl a)]
    exact strLt_irrefl as

theorem strLt_asymm {p q : List Char} (h : strLt p q = true) : strLt q p = false := by
  by_contra hc
  rw [Bool.not_eq_false] at hc
  have hpp := strLt_trans h hc
  rw [strLt_irrefl] at hpp
  cases hpp

theorem strLt_of_prefix_ne : ∀ {p q : List Char}, p <+: q → p ≠ q → strLt p q = true
  | [], [], _, hne => absurd rfl hne
  | [], _ :: _, _, _ => by simp [strLt]
  | _ :: _, [], hp, _ => by simp at hp
  | a :: as, b :: bs, hp, hne => by
    obtain ⟨hab, htail⟩ : a = b ∧ as <+: bs := by
      rcases hp with ⟨t, ht⟩
      injection ht with h1 h2
      exact ⟨h1, ⟨t, h2⟩⟩
    subst hab
    simp only [strLt]
    rw [if_neg (lt_irrefl a), if_neg (lt_irrefl a)]
    exact strLt_of_prefix_ne htail fun hh => hne (by rw [hh])

/-! ### Claims C1, C5, C6, C8 about the substitutor -/

/-- C1, counterexample: register `"ab" -> "1"` first and `"a" -> "2"` second.
The claim ("reverse registration order, first match wins, later-registered
rules take precedence") predicts that the later-registered `"a"` is tried
first on input `"ab"`, producing `"2b"` (`specSubstitute`).  The code stores
the rules in a `std::map` and tries `"ab"` first, producing `"1"`. -/
theorem C1_counterexample :
    wireSubstitute ['a', 'b'] [(['a', 'b'], ['1']), (['a'], ['2'])] = .ok ['1'] ∧
    specSubstitute ['a', 'b'] [(['a', 'b'], ['1']), (['a'], ['2'])] = .ok ['2', 'b'] ∧
    wireSubstitute ['a', 'b'] [(['a', 'b'], ['1']), (['a'], ['2'])] ≠
      specSubstitute ['a', 'b'] [(['a', 'b'], ['1']), (['a'], ['2'])] := by
  have h1 : wireSubstitute ['a', 'b'] [(['a', 'b'], ['1']), (['a'], ['2'])] = .ok ['1'] := by
    have hm : (mapOfList [(['a', 'b'], ['1']), (['a'], ['2'])]).reverse =
        [(['a', 'b'], ['1']), (['a'], ['2'])] := by decide
    show replace_map (mapOfList [(['a', 'b'], ['1']), (['a'], ['2'])]).reverse ['a', 'b'] = _
    rw [hm]
    simp [replace_map, findRule, exceptMap_ok]
  have h2 : specSubstitute ['a', 'b'] [(['a', 'b'], ['1']), (['a'], ['2'])] = .ok ['2', 'b'] := by
    show replace_map [(['a', 'b'], ['1']), (['a'], ['2'])].reverse ['a', 'b'] = _
    simp [replace_map, findRule, exceptMap_ok]
  refine ⟨h1, h2, ?_⟩
  rw [h1, h2]
  simp

/-- C1, amended: at each scan position the substitutor tries the rules in
descending lexicographic order of their patterns (the reverse iteration
order of the `std::map` the rules are registered into — registration order
is immaterial), and the first rule in that order whose pattern starts at the
position is the one applied. -/
theorem C1_descending_order_first_match :
    (∀ regs : List (List Char × List Char),
        ((mapOfList regs).reverse).Pairwise (fun a b => strLt b.1 a.1 = true)) ∧
    (∀ (pre post : List (List Char × List Char)) (t r rem : List Char),
        (∀ tr ∈ pre, ¬(tr.1.length ≤ rem.length ∧ tr.1 <+: rem)) →
        t ≠ [] → t <+: rem →
        replace_map (pre ++ (t, r) :: post) rem =
          (replace_map (pre ++ (t, r) :: post) (rem.drop t.length)).map (r ++ ·)) := by
  constructor
  · intro regs
    rw [List.pairwise_reverse]
    exact mapOfList_sorted regs
  · intro pre post t r rem hpre hne hp
    obtain ⟨c, rest, rfl⟩ : ∃ c rest, rem = c :: rest := by
      cases rem with
      | nil =>
        rw [List.prefix_nil] at hp
        exact absurd hp hne
      | cons c rest => exact ⟨c, rest, rfl⟩
    exact replace_map_cons_found ((findRule_append_skip hpre).trans (findRule_cons_hit hne hp))

/-- Witness for `C1_descending_order_first_match` at `pre = []`,
`t = "ab"`, `r = "1"`, `post = [("a", "2")]`, `rem = "ab"`. -/
theorem C1_descending_order_first_match_witness :
    (∀ tr ∈ ([] : List (List Char × List Char)),
        ¬(tr.1.length ≤ (['a', 'b'] : List Char).length ∧ tr.1 <+: ['a', 'b'])) ∧
    (['a', 'b'] : List Char) ≠ [] ∧ (['a', 'b'] : List Char) <+: ['a', 'b'] ∧
    replace_map [(['a', 'b'], ['1']), (['a'], ['2'])] ['a', 'b'] =
      (replace_map [(['a', 'b'], ['1']), (['a'], ['2'])]
        (['a', 'b'].drop (['a', 'b'] : List Char).length)).map (['1'] ++ ·) :=
  ⟨by simp, by decide, by decide,
    C1_descending_order_first_match.2 [] [(['a'], ['2'])] ['a', 'b'] ['1'] ['a', 'b']
      (by simp) (by decide) (by decide)⟩

/-- C5, counterexample: an empty-pattern rule is neither rejected nor
skipped; on input `"a"` it reaches `target.at(0)`, which throws
`std::out_of_range` (embedded as `Except.error`), instead of producing the
output `"a"` the claim requires. -/
theorem C5_counterexample :
    wireSubstitute ['a'] [([], ['X'])] = .error () ∧
    wireSubstitute ['a'] [([], ['X'])] ≠ .ok ['a'] := by
  have ha : wireSubstitute ['a'] [([], ['X'])] = .error () :=
    replace_map_cons_error (by rfl)
  refine ⟨ha, ?_⟩
  rw [ha]
  simp

/-- C5, amended: an empty-pattern rule is not rejected or skipped — once the
scan examines it (here: it is the only rule) the out-of-range access on
`target.at(0)` raises, for every non-empty input; `substitute` of the empty
input still returns the empty output for every rule set, because the scan
loop body never runs. -/
theorem C5_empty_pattern_raises_empty_input_ok :
    (∀ regs : List (List Char × List Char), wireSubstitute [] regs = .ok []) ∧
    (∀ (r s : List Char), s ≠ [] → wireSubstitute s [([], r)] = .error ()) := by
  constructor
  · intro regs
    exact replace_map_nil _
  · intro r s hs
    obtain ⟨c, rest, rfl⟩ : ∃ c rest, s = c :: rest := by
      cases s with
      | nil => exact absurd rfl hs
      | cons c rest => exact ⟨c, rest, rfl⟩
    exact replace_map_cons_error (by rfl)

/-- Witness for `C5_empty_pattern_raises_empty_input_ok` at `s = "z"`,
`r = "Y"`. -/
theorem C5_empty_pattern_raises_empty_input_ok_witness :
    (['z'] : List Char) ≠ [] ∧ wireSubstitute ['z'] [([], ['Y'])] = .error () :=
  ⟨by decide, C5_empty_pattern_raises_empty_input_ok.2 ['Y'] ['z'] (by decide)⟩

/-- C6: with two registered rules whose patterns are `p` and `q`, `p` a
proper prefix of `q` and `q` registered later, the scan applies the rule of
the longer pattern `q` at any position where `q` (and hence also `p`)
starts the remaining input.  (In the `std::map` the longer pattern sorts
after `p` and is therefore tried first in reverse iteration; registration
order is in fact immaterial.) -/
theorem C6_longer_prefix_rule_wins {p q r1 r2 rem : List Char}
    (hpq : p <+: q) (hne : p ≠ q) (hq : q <+: rem) :
    wireSubstitute rem [(p, r1), (q, r2)] =
      (replace_map (mapOfList [(p, r1), (q, r2)]).reverse (rem.drop q.length)).map (r2 ++ ·) := by
  have hqne : q ≠ [] := by
    intro hq0
    subst hq0
    rw [List.prefix_nil] at hpq
    exact hne hpq
  have hlt : strLt p q = true := strLt_of_prefix_ne hpq hne
  have hmap : (mapOfList [(p, r1), (q, r2)]).reverse = [(q, r2), (p, r1)] := by
    simp [mapOfList, mapInsert, hlt, strLt_asymm hlt]
  obtain ⟨c, rest, rfl⟩ : ∃ c rest, rem = c :: rest := by
    cases rem with
    | nil =>
      rw [List.prefix_nil] at hq
      exact absurd hq hqne
    | cons c rest => exact ⟨c, rest, rfl⟩
  show replace_map (mapOfList [(p, r1), (q, r2)]).reverse (c :: rest) = _
  rw [hmap]
  exact replace_map_cons_found (findRule_cons_hit hqne hq)

/-- Witness for `C6_longer_prefix_rule_wins` at `p = "a"`, `q = "ab"`,
`rem = "abc"`. -/
theorem C6_longer_prefix_rule_wins_witness :
    (['a'] : List Char) <+: ['a', 'b'] ∧ (['a'] : List Char) ≠ ['a', 'b'] ∧
    (['a', 'b'] : List Char) <+: ['a', 'b', 'c'] ∧
    wireSubstitute ['a', 'b', 'c'] [(['a'], ['1']), (['a', 'b'], ['2'])] =
      (replace_map (mapOfList [(['a'], ['1']), (['a', 'b'], ['2'])]).reverse
        (['a', 'b', 'c'].drop (['a', 'b'] : List Char).length)).map (['2'] ++ ·) :=
  ⟨by decide, by decide, by decide,
    C6_longer_prefix_rule_wins (by decide) (by decide) (by decide)⟩

/-- C8: substituting with the empty rule set is the identity scan (every
character is copied), so applying `substitute` with no rules to the output
of any substitution returns that output unchanged. -/
theorem C8_substitute_empty_rules_idempotent (s : List Char) (regs : List (List Char × List Char)) :
    (wireSubstitute s regs).bind (fun out => wireSubstitute out []) = wireSubstitute s regs := by
  cases h : wireSubstitute s regs with
  | error e => rfl
  | ok out =>
    show wireSubstitute out [] = .ok out
    exact replace_map_nil_rules out

/-! ### `wire::string::at` (src/wire.hpp:357-373)

`at(pos)` computes, with C++ truncated `%` (`Int.tmod`),
`pos >= 0 ? pos % size : size - 1 + ((pos+1) % size)` and passes the result
to `std::string::at`, which throws on an out-of-range index (embedded as
`none`).  For the empty string it returns a reference to a static NUL
character instead (src/wire.hpp:362-363). -/

/-- `std::string::at(idx)`: the character at `idx`, or an `std::out_of_range`
throw (`none`) when `idx` is outside the string. -/
def stdStringAt (s : List Char) (idx : Int) : Option Char :=
  if 0 ≤ idx ∧ idx < (s.length : Int) then some (s.getD idx.toNat (Char.ofNat 0)) else none

/-- `wire::string::at(pos)` (src/wire.hpp:357-364). -/
def wireAt (s : List Char) (pos : Int) : Option Char :=
  if s.length ≠ 0 then
    stdStringAt s
      (if pos ≥ 0 then Int.tmod pos (s.length : Int)
       else (s.length : Int) - 1 + Int.tmod (pos + 1) (s.length : Int))
  else some (Char.ofNat 0)

theorem tmod_neg_natCast (k n : ℕ) : Int.tmod (-(k : ℤ)) (n : ℤ) = -((k % n : ℕ) : ℤ) := by
  cases k with
  | zero => simp [Int.tmod]
  | succ j =>
    have hneg : (-(((j : ℕ) + 1 : ℕ) : ℤ)) = Int.negSucc j := by
      rw [Int.negSucc_eq]
      push_cast
      ring
    rw [hneg]
    rfl

theorem cpp_index_emod (pos : ℤ) (n : ℕ) (hn : 0 < n) :
    (if pos ≥ 0 then Int.tmod pos (n : ℤ)
     else (n : ℤ) - 1 + Int.tmod (pos + 1) (n : ℤ)) = pos % (n : ℤ) := by
  split_ifs with h
  · exact Int.tmod_eq_emod h (by positivity)
  · push_neg at h
    obtain ⟨k, rfl⟩ : ∃ k : ℕ, pos = -((k : ℤ) + 1) := by
      refine ⟨(-(pos + 1)).toNat, ?_⟩
      omega
    have h1 : Int.tmod (-((k : ℤ) + 1) + 1) (n : ℤ) = -((k % n : ℕ) : ℤ) := by
      have he : -((k : ℤ) + 1) + 1 = -(k : ℤ) := by ring
      rw [he, tmod_neg_natCast]
    rw [h1]
    have hk := Nat.div_add_mod k n
    have hmlt : k % n < n := Nat.mod_lt _ hn
    have hdecomp : (-((k : ℤ) + 1)) = ((n : ℤ) - 1 - ((k % n : ℕ) : ℤ)) + (-((k / n : ℕ) : ℤ) - 1) * (n : ℤ) := by
      have hkz : (k : ℤ) = (n : ℤ) * ((k / n : ℕ) : ℤ) + ((k % n : ℕ) : ℤ) := by
        exact_mod_cast congrArg (fun x : ℕ => (x : ℤ)) hk.symm
      rw [hkz]
      ring
    rw [hdecomp, Int.add_mul_emod_self]
    rw [Int.emod_eq_of_lt (by omega) (by omega)]
    ring

/-- C9: circular indexing is total.  For every string and every signed
position, `at` returns the character at index `pos` modulo the length in the
mathematical (Euclidean) sense — so `at (-1)` is the last character — and on
the empty string it returns a NUL character instead of failing; in no case
does the inner `std::string::at` throw. -/
theorem C9_circular_at_total (s : List Char) (pos : Int) :
    wireAt s pos =
      some (if s.length = 0 then Char.ofNat 0
            else s.getD (pos % (s.length : Int)).toNat (Char.ofNat 0)) := by
  by_cases h0 : s.length = 0
  · simp [wireAt, h0]
  · have hn : 0 < s.length := Nat.pos_of_ne_zero h0
    rw [wireAt, if_pos h0, cpp_index_emod pos s.length hn]
    have hne : (s.length : ℤ) ≠ 0 := by exact_mod_cast h0
    have hnonneg : 0 ≤ pos % (s.length : ℤ) := Int.emod_nonneg _ hne
    have hlt : pos % (s.length : ℤ) < (s.length : ℤ) := Int.emod_lt_of_pos _ (by exact_mod_cast hn)
    rw [stdStringAt, if_pos ⟨hnonneg, hlt⟩, if_neg h0]

/-! ### `wire::as` conversions (src/wire.hpp:86-106)

The generic `as<T>` first tries `std::istringstream(self) >> t`; if the
extraction fails it falls back to
`self.size() && (self != "0") && (self != "false")` cast to `T`.  We embed
the representative instantiation `T = int`: the stream extraction skips
leading whitespace, accepts an optional sign and a non-empty run of decimal
digits (C++11 `num_get` fails — leaving the fallback to run — when there is
no digit or the value overflows `int`).  The `char` specialisations
(src/wire.hpp:95-106) return the single character of a length-1 string
directly and otherwise truncate `as<int>` to a byte. -/

/-- `std::isspace` in the default locale. -/
def isStreamSpace (c : Char) : Bool :=
  c = ' ' || c = '\t' || c = '\n' || c = '\x0b' || c = '\x0c' || c = '\r'

def digitsVal (ds : List Char) : Nat :=
  ds.foldl (fun a c => 10 * a + (c.toNat - 48)) 0

/-- `std::istringstream >> (int&)`: skip whitespace, optional sign, a
non-empty digit run valued in base 10; `none` (extraction failure) when
there is no digit or the value does not fit in `int`. -/
def parseIntC (s : List Char) : Option Int :=
  let s1 := s.dropWhile isStreamSpace
  let core : Int × List Char :=
    match s1 with
    | '+' :: r => (1, r)
    | '-' :: r => (-1, r)
    | r => (1, r)
  let ds := core.2.takeWhile Char.isDigit
  if ds = [] then none
  else
    let v : Int := core.1 * (digitsVal ds : Int)
    if v < -(2 ^ 31) ∨ 2 ^ 31 ≤ v then none else some v

/-- The truthiness fallback `self.size() && (self != "0") && (self != "false")`
(src/wire.hpp:91). -/
def truthy (s : List Char) : Bool :=
  !s.isEmpty && decide (s ≠ ['0']) && decide (s ≠ ['f', 'a', 'l', 's', 'e'])

/-- `wire::as<int>` (src/wire.hpp:86-93). -/
def as_int (s : List Char) : Int :=
  match parseIntC s with
  | some v => v
  | none => if truthy s then 1 else 0

/-- `wire::as<char>` (src/wire.hpp:95-98): a length-1 string yields its
character; otherwise `as<int>` truncated to a byte. -/
def as_char (s : List Char) : Nat :=
  match s with
  | [c] => c.toNat
  | _ => ((as_int s) % 256).toNat

theorem truthy_iff (s : List Char) :
    truthy s = true ↔ s ≠ [] ∧ s ≠ ['0'] ∧ s ≠ ['f', 'a', 'l', 's', 'e'] := by
  simp [truthy, List.isEmpty_iff, and_assoc]

/-- C7: the read/cast conversion first attempts the numeric parse of the
stored string and returns its value on success; only on parse failure does
it fall back to the truthiness rule, under which the empty string and the
literal strings `"0"` and `"false"` convert as `0` (false) and every other
string converts as `1` (true). -/
theorem C7_parse_then_truthy :
    (∀ (s : List Char) (v : Int), parseIntC s = some v → as_int s = v) ∧
    (∀ s : List Char, parseIntC s = none →
      as_int s =
        if s ≠ [] ∧ s ≠ ['0'] ∧ s ≠ ['f', 'a', 'l', 's', 'e'] then 1 else 0) := by
  constructor
  · intro s v h
    unfold as_int
    rw [h]
  · intro s h
    unfold as_int
    rw [h]
    by_cases hp : s ≠ [] ∧ s ≠ ['0'] ∧ s ≠ ['f', 'a', 'l', 's', 'e']
    · rw [if_pos ((truthy_iff s).2 hp), if_pos hp]
    · rw [if_neg (fun ht => hp ((truthy_iff s).1 ht)), if_neg hp]

/-- Witness for `C7_parse_then_truthy`: `"42"` parses to `42`; `"x"` fails
the parse and goes through the truthiness rule. -/
theorem C7_parse_then_truthy_witness :
    as_int ['4', '2'] = 42 ∧
    as_int ['x'] =
      (if (['x'] : List Char) ≠ [] ∧ (['x'] : List Char) ≠ ['0'] ∧
          (['x'] : List Char) ≠ ['f', 'a', 'l', 's', 'e'] then 1 else 0) :=
  ⟨C7_parse_then_truthy.1 ['4', '2'] 42 (by decide),
   C7_parse_then_truthy.2 ['x'] (by decide)⟩

/-- C10: a stored string of length exactly 1 converts to a character as that
single character directly — bypassing the parse (e.g. `"7"` becomes the
character code 55, not the parsed value 7) — and every string of length
other than 1 converts through `as<int>` (numeric parse, then truthiness
fallback) truncated to a byte. -/
theorem C10_char_cast_single_char_bypasses_parse :
    (∀ c : Char, as_char [c] = c.toNat) ∧
    (∀ s : List Char, s.length ≠ 1 → as_char s = ((as_int s) % 256).toNat) ∧
    as_char ['7'] = 55 ∧ as_int ['7'] = 7 := by
  refine ⟨fun c => rfl, ?_, by decide, by decide⟩
  intro s hs
  match s with
  | [] => rfl
  | [c] => exact absurd rfl hs
  | a :: b :: t => rfl

/-- Witness for `C10_char_cast_single_char_bypasses_parse` at `s = "42"`. -/
theorem C10_char_cast_single_char_bypasses_parse_witness :
    (['4', '2'] : List Char).length ≠ 1 ∧
    as_char ['4', '2'] = ((as_int ['4', '2']) % 256).toNat :=
  ⟨by decide, C10_char_cast_single_char_bypasses_parse.2.1 ['4', '2'] (by decide)⟩

/-! ### `wire::string::matches` (src/wire.hpp:451-463)

`local::match(pattern, str)`:
```
if( *pattern=='\0' ) return !*str;
if( *pattern=='*' )  return match(pattern+1, str) || *str && match(pattern, str+1);
if( *pattern=='?' )  return *str && (*str != '.') && match(pattern+1, str+1);
return (*str == *pattern) && match(pattern+1, str+1);
```
The four C branches are embedded below, with the end-of-string tests of the
NUL-free C strings becoming list pattern matches (the `'?'` and literal
branches both yield `false` on an exhausted `str`). -/

def matchPat : List Char → List Char → Bool
  | [], [] => true
  | [], _ :: _ => false
  | p :: ps, s =>
    if p = '*' then
      matchPat ps s ||
        (match s with
         | [] => false
         | _ :: s' => matchPat (p :: ps) s')
    else
      match s with
      | [] => false
      | c :: s' =>
        if p = '?' then decide (c ≠ '.') && matchPat ps s'
        else (c == p) && matchPat ps s'
termination_by p s => (s.length, p.length)

/-- `text.matches(pattern)` calls `local::match(pattern.c_str(), c_str())`.
(`matches` is a reserved word in Lean, hence the `wire` prefix.) -/
def wireMatches (text pattern : List Char) : Bool :=
  matchPat pattern text

theorem matchPat_cons_eq (p : Char) (ps s : List Char) :
    matchPat (p :: ps) s =
      if p = '*' then
        matchPat ps s ||
          (match s with
           | [] => false
           | _ :: s' => matchPat (p :: ps) s')
      else
        match s with
        | [] => false
        | c :: s' =>
          if p = '?' then decide (c ≠ '.') && matchPat ps s'
          else (c == p) && matchPat ps s' := by
  conv_lhs => rw [matchPat.eq_def]

theorem matchPat_nil_nil : matchPat [] [] = true := by
  rw [matchPat.eq_def]

/-- C4, counterexample: `?` is not "one character that is not a record/line
separator": it refuses the dot `'.'` (which is not a line separator) and
accepts the newline (which is one). -/
theorem C4_counterexample :
    wireMatches ['\n'] ['?'] = true ∧ wireMatches ['.'] ['?'] = false := by
  constructor
  · show matchPat ['?'] ['\n'] = true
    rw [matchPat_cons_eq, if_neg (by decide)]
    show (if ('?' : Char) = '?' then decide (('\n' : Char) ≠ '.') && matchPat [] []
          else (('\n' : Char) == '?') && matchPat [] []) = true
    rw [if_pos rfl, matchPat_nil_nil, Bool.and_true]
    decide
  · show matchPat ['?'] ['.'] = false
    rw [matchPat_cons_eq, if_neg (by decide)]
    show (if ('?' : Char) = '?' then decide (('.' : Char) ≠ '.') && matchPat [] []
          else (('.' : Char) == '?') && matchPat [] []) = false
    rw [if_pos rfl, matchPat_nil_nil, Bool.and_true]
    decide

/-- C4, amended: in `matches(text, pattern)` the pattern character `?`
matches exactly one character of the text that is not the dot character
`'.'`, and every pattern character other than `*` and `?` (within NUL-free
byte strings) matches only itself literally. -/
theorem C4_question_mark_not_dot_literals_self :
    (∀ (ps s : List Char),
        (matchPat ('?' :: ps) s = true ↔
          ∃ c s', s = c :: s' ∧ c ≠ '.' ∧ matchPat ps s' = true)) ∧
    (∀ (p : Char) (ps s : List Char), p ≠ '*' → p ≠ '?' →
        (matchPat (p :: ps) s = true ↔
          ∃ s', s = p :: s' ∧ matchPat ps s' = true)) := by
  constructor
  · intro ps s
    rw [matchPat_cons_eq, if_neg (by decide)]
    cases s with
    | nil => simp
    | cons c s' =>
      show (if ('?' : Char) = '?' then decide (c ≠ '.') && matchPat ps s'
            else (c == '?') && matchPat ps s') = true ↔ _
      rw [if_pos rfl]
      constructor
      · intro h
        rw [Bool.and_eq_true, decide_eq_true_eq] at h
        exact ⟨c, s', rfl, h.1, h.2⟩
      · rintro ⟨c2, s2, heq, hdot, hm⟩
        injection heq with h1 h2
        subst h1
        subst h2
        rw [Bool.and_eq_true, decide_eq_true_eq]
        exact ⟨hdot, hm⟩
  · intro p ps s hstar hq
    rw [matchPat_cons_eq, if_neg hstar]
    cases s with
    | nil => simp
    | cons c s' =>
      show (if p = '?' then decide (c ≠ '.') && matchPat ps s'
            else (c == p) && matchPat ps s') = true ↔ _
      rw [if_neg hq]
      constructor
      · intro h
        rw [Bool.and_eq_true, beq_iff_eq] at h
        exact ⟨s', by rw [h.1], h.2⟩
      · rintro ⟨s2, heq, hm⟩
        injection heq with h1 h2
        subst h1
        subst h2
        rw [Bool.and_eq_true, beq_iff_eq]
        exact ⟨rfl, hm⟩

/-- Witness for `C4_question_mark_not_dot_literals_self`: the literal part
at `p = 'x'`, `ps = []`, `s = "x"`. -/
theorem C4_question_mark_not_dot_literals_self_witness :
    ('x' ≠ '*') ∧ ('x' ≠ '?') ∧
    (matchPat ['x'] ['x'] = true ↔ ∃ s', (['x'] : List Char) = 'x' :: s' ∧ matchPat [] s' = true) :=
  ⟨by decide, by decide,
    C4_question_mark_not_dot_literals_self.2 'x' [] ['x'] (by decide) (by decide)⟩

/-! ### `wire::eval` — modelled from the spec

`double eval(const std::string&)` is only declared in `src/wire.hpp:79`; its
definition (`wire.cpp`) is not under `src/`.  The evaluator below is
modelled from the spec, section 4.6: precedence levels (low to high)
`+ -` (left-associative), `* /` (left-associative), `^`
(right-associative), unary `-`, parenthesised sub-expressions, and decimal
literals with optional fraction and exponent.  Double-precision values are
abstracted by `FD`: a `NaN` sentinel, the two signed infinities, and exact
finite values represented by unnormalized fractions (`Frac`, compared by
cross-multiplication); fractional exponents and the infinity combinations
whose exact double value no claim depends on collapse to `FD.nan`.  Per
spec section 5 ("implementations should impose [a recursion-depth limit]
defensively") the recursive-descent engine runs on a depth budget that the
wrapper `eval` sizes generously from the input length, so the function is
total by construction. -/

/-- An exact finite value: an unnormalized fraction with positive
denominator (every constructor below keeps `den` a product of positive
numbers). -/
structure Frac where
  num : Int
  den : Nat
deriving DecidableEq

def Frac.ofNat (n : Nat) : Frac := ⟨n, 1⟩

def Frac.neg (a : Frac) : Frac := ⟨-a.num, a.den⟩

def Frac.add (a b : Frac) : Frac := ⟨a.num * b.den + b.num * a.den, a.den * b.den⟩

def Frac.mul (a b : Frac) : Frac := ⟨a.num * b.num, a.den * b.den⟩

/-- Division by a fraction with non-zero numerator (the caller tests for
zero first). -/
def Frac.div (a b : Frac) : Frac :=
  if 0 ≤ b.num then ⟨a.num * b.den, a.den * b.num.toNat⟩
  else ⟨-(a.num * (b.den : Int)), a.den * (-b.num).toNat⟩

def Frac.npow (a : Frac) (k : Nat) : Frac := ⟨a.num ^ k, a.den ^ k⟩

def Frac.inv (a : Frac) : Frac :=
  if 0 ≤ a.num then ⟨(a.den : Int), a.num.toNat⟩ else ⟨-(a.den : Int), (-a.num).toNat⟩

def Frac.isZero (a : Frac) : Bool := a.num == 0

def Frac.isPos (a : Frac) : Bool := decide (0 < a.num)

def Frac.isNeg (a : Frac) : Bool := decide (a.num < 0)

/-- Exact value equality by cross-multiplication. -/
def Frac.beq (a b : Frac) : Bool := a.num * b.den == b.num * a.den

/-- The integer denoted by the fraction, when it denotes one. -/
def Frac.asInt (a : Frac) : Option Int :=
  if a.num % (a.den : Int) = 0 then some (a.num / (a.den : Int)) else none

/-- The model of a double result: the NaN sentinel, signed infinities, or an
exact finite value. -/
inductive FD where
  | nan
  | pinf
  | ninf
  | fin (q : Frac)
deriving DecidableEq

/-- IEEE `==` on the model: `NaN` compares unequal to everything, including
itself; finite values compare by exact value. -/
def FD.beq : FD → FD → Bool
  | .fin a, .fin b => a.beq b
  | .pinf, .pinf => true
  | .ninf, .ninf => true
  | _, _ => false

def FD.neg : FD → FD
  | .nan => .nan
  | .pinf => .ninf
  | .ninf => .pinf
  | .fin q => .fin q.neg

def FD.add : FD → FD → FD
  | .nan, _ => .nan
  | _, .nan => .nan
  | .pinf, .ninf => .nan
  | .ninf, .pinf => .nan
  | .pinf, _ => .pinf
  | _, .pinf => .pinf
  | .ninf, _ => .ninf
  | _, .ninf => .ninf
  | .fin a, .fin b => .fin (a.add b)

def FD.sub (a b : FD) : FD := a.add b.neg

def FD.mul : FD → FD → FD
  | .nan, _ => .nan
  | _, .nan => .nan
  | .fin a, .fin b => .fin (a.mul b)
  | .pinf, .pinf => .pinf
  | .pinf, .ninf => .ninf
  | .ninf, .pinf => .ninf
  | .ninf, .ninf => .pinf
  | .pinf, .fin b => if b.isPos then .pinf else if b.isNeg then .ninf else .nan
  | .fin a, .pinf => if a.isPos then .pinf else if a.isNeg then .ninf else .nan
  | .ninf, .fin b => if b.isPos then .ninf else if b.isNeg then .pinf else .nan
  | .fin a, .ninf => if a.isPos then .ninf else if a.isNeg then .pinf else .nan

/-- Division, with the spec's "division by zero yields signed infinity"
(`0/0` is NaN); signed zeros are not modelled. -/
def FD.div : FD → FD → FD
  | .nan, _ => .nan
  | _, .nan => .nan
  | .fin a, .fin b =>
    if b.isZero then (if a.isPos then .pinf else if a.isNeg then .ninf else .nan)
    else .fin (a.div b)
  | .fin _, .pinf => .fin (Frac.ofNat 0)
  | .fin _, .ninf => .fin (Frac.ofNat 0)
  | .pinf, .fin b => if b.isNeg then .ninf else .pinf
  | .ninf, .fin b => if b.isNeg then .pinf else .ninf
  | _, _ => .nan

/-- Exponentiation on integral exponents; fractional exponents and infinite
operands are outside the exact model and collapse to NaN. -/
def FD.fpow : FD → FD → FD
  | .fin a, .fin b =>
    match b.asInt with
    | some e =>
      if 0 ≤ e then .fin (a.npow e.toNat)
      else if a.isZero then .pinf
      else .fin ((a.npow (-e).toNat).inv)
    | none => .nan
  | _, _ => .nan

/-- Expression tokens (spec section 3: number literal, the seven operator
and parenthesis characters, end of input = end of list). -/
inductive Tok where
  | num (q : Frac)
  | plus
  | minus
  | star
  | slash
  | caret
  | lparen
  | rparen
deriving DecidableEq

/-- Lex one decimal literal (digits, optional `.` fraction, optional
`e`/`E` exponent with optional sign — the exponent marker is consumed only
when digits follow it), returning its value and the rest of the input. -/
def lexNumber (l : List Char) : Frac × List Char :=
  let ip := l.takeWhile Char.isDigit
  let r1 := l.dropWhile Char.isDigit
  let fr : List Char × List Char :=
    match r1 with
    | '.' :: r => (r.takeWhile Char.isDigit, r.dropWhile Char.isDigit)
    | _ => ([], r1)
  let base : Frac := ⟨digitsVal ip * 10 ^ fr.1.length + digitsVal fr.1, 10 ^ fr.1.length⟩
  let ex : Option Int × List Char :=
    match fr.2 with
    | 'e' :: '+' :: r4 =>
      if r4.takeWhile Char.isDigit = [] then (none, fr.2)
      else (some (digitsVal (r4.takeWhile Char.isDigit) : Int), r4.dropWhile Char.isDigit)
    | 'E' :: '+' :: r4 =>
      if r4.takeWhile Char.isDigit = [] then (none, fr.2)
      else (some (digitsVal (r4.takeWhile Char.isDigit) : Int), r4.dropWhile Char.isDigit)
    | 'e' :: '-' :: r4 =>
      if r4.takeWhile Char.isDigit = [] then (none, fr.2)
      else (some (-(digitsVal (r4.takeWhile Char.isDigit) : Int)), r4.dropWhile Char.isDigit)
    | 'E' :: '-' :: r4 =>
      if r4.takeWhile Char.isDigit = [] then (none, fr.2)
      else (some (-(digitsVal (r4.takeWhile Char.isDigit) : Int)), r4.dropWhile Char.isDigit)
    | 'e' :: r4 =>
      if r4.takeWhile Char.isDigit = [] then (none, fr.2)
      else (some (digitsVal (r4.takeWhile Char.isDigit) : Int), r4.dropWhile Char.isDigit)
    | 'E' :: r4 =>
      if r4.takeWhile Char.isDigit = [] then (none, fr.2)
      else (some (digitsVal (r4.takeWhile Char.isDigit) : Int), r4.dropWhile Char.isDigit)
    | _ => (none, fr.2)
  match ex.1 with
  | none => (base, ex.2)
  | some e =>
    if 0 ≤ e then (base.mul ⟨10 ^ e.toNat, 1⟩, ex.2)
    else (base.mul ⟨1, 10 ^ (-e).toNat⟩, ex.2)

/-- Tokenizer; each step consumes at least one character, so the fuel passed
by `tokenize` never runs out; any character outside the expression alphabet
is a syntax error (`none`). -/
def tokenizeGo : Nat → List Char → Option (List Tok)
  | 0, _ => none
  | _ + 1, [] => some []
  | fuel + 1, c :: rest =>
    if c = '+' then (tokenizeGo fuel rest).map (Tok.plus :: ·)
    else if c = '-' then (tokenizeGo fuel rest).map (Tok.minus :: ·)
    else if c = '*' then (tokenizeGo fuel rest).map (Tok.star :: ·)
    else if c = '/' then (tokenizeGo fuel rest).map (Tok.slash :: ·)
    else if c = '^' then (tokenizeGo fuel rest).map (Tok.caret :: ·)
    else if c = '(' then (tokenizeGo fuel rest).map (Tok.lparen :: ·)
    else if c = ')' then (tokenizeGo fuel rest).map (Tok.rparen :: ·)
    else if c.isDigit then
      (tokenizeGo fuel (lexNumber (c :: rest)).2).map (Tok.num (lexNumber (c :: rest)).1 :: ·)
    else none

def tokenize (s : List Char) : Option (List Tok) :=
  tokenizeGo (s.length + 1) s

/-- The state of the precedence-climbing engine: one constructor per grammar
level, the loop levels carrying the left-associative accumulator. -/
inductive PJob where
  | expr
  | exprLoop (acc : FD)
  | term
  | termLoop (acc : FD)
  | power
  | unary

/-- One recursive-descent engine for all levels (spec section 4.6): `expr`
= `term {(+|-) term}`, `term` = `power {(*|/) power}`, `power` = `unary
[^ power]` (right-associative), `unary` = `- unary | ( expr ) | literal`.
Returns the value and the unconsumed tokens, `none` on a syntax error or an
exhausted depth budget. -/
def parseLevels : Nat → PJob → List Tok → Option (FD × List Tok)
  | 0, _, _ => none
  | fuel + 1, .unary, ts =>
    match ts with
    | .minus :: r => (parseLevels fuel .unary r).map (fun vr => (vr.1.neg, vr.2))
    | .lparen :: r =>
      match parseLevels fuel .expr r with
      | some (v, .rparen :: r') => some (v, r')
      | _ => none
    | .num q :: r => some (.fin q, r)
    | _ => none
  | fuel + 1, .power, ts =>
    match parseLevels fuel .unary ts with
    | some (v, .caret :: r) => (parseLevels fuel .power r).map (fun wr => (v.fpow wr.1, wr.2))
    | other => other
  | fuel + 1, .term, ts =>
    match parseLevels fuel .power ts with
    | some (v, r) => parseLevels fuel (.termLoop v) r
    | none => none
  | fuel + 1, .termLoop acc, ts =>
    match ts with
    | .star :: r =>
      match parseLevels fuel .power r with
      | some (w, r') => parseLevels fuel (.termLoop (acc.mul w)) r'
      | none => none
    | .slash :: r =>
      match parseLevels fuel .power r with
      | some (w, r') => parseLevels fuel (.termLoop (acc.div w)) r'
      | none => none
    | _ => some (acc, ts)
  | fuel + 1, .expr, ts =>
    match parseLevels fuel .term ts with
    | some (v, r) => parseLevels fuel (.exprLoop v) r
    | none => none
  | fuel + 1, .exprLoop acc, ts =>
    match ts with
    | .plus :: r =>
      match parseLevels fuel .term r with
      | some (w, r') => parseLevels fuel (.exprLoop (acc.add w)) r'
      | none => none
    | .minus :: r =>
      match parseLevels fuel .term r with
      | some (w, r') => parseLevels fuel (.exprLoop (acc.sub w)) r'
      | none => none
    | _ => some (acc, ts)

/-- Modelled from the spec: `wire::eval` (declared src/wire.hpp:79, defined
in the repository's `wire.cpp`, which is not under `src/`).  A tokenizer
error, a parse error, unconsumed trailing tokens, or an exhausted depth
budget all yield the NaN sentinel; the function is total. -/
def eval (s : List Char) : FD :=
  match tokenize s with
  | none => .nan
  | some ts =>
    match parseLevels (5 * (ts.length + 1)) .expr ts with
    | some (v, []) => v
    | _ => .nan

theorem eval_precedence_example : eval ['2', '+', '3', '*', '4'] = FD.fin ⟨14, 1⟩ := by decide

theorem eval_paren_example : eval ['(', '2', '+', '3', ')', '*', '4'] = FD.fin ⟨20, 1⟩ := by decide

theorem eval_pow_right_assoc_example : eval ['2', '^', '3', '^', '2'] = FD.fin ⟨512, 1⟩ := by decide

theorem eval_div_zero_example : eval ['1', '/', '0'] = FD.pinf := by decide

theorem C3_eval_total_nan_on_malformed :
    (∀ s : List Char, ∃ r : FD, eval s = r) ∧
    eval ['2', '+'] = FD.nan ∧
    eval ['(', '2', '+', '3'] = FD.nan ∧
    eval ['2', ')'] = FD.nan ∧
    eval ['2', '%'] = FD.nan ∧
    FD.beq (eval ['2', '+']) (eval ['2', '+']) = false := by
  refine ⟨fun s => ⟨eval s, rfl⟩, ?_, ?_, ?_, ?_, ?_⟩ <;> decide

/-! ### `wire::translate` — modelled from the spec

`wire::extract`, `wire::translate` and `wire::locate` are only declared in
`src/wire.hpp:784-786`; their definitions (`wire.cpp`) are not under `src/`.
The models below follow the spec: section 4.4 for `extract` (split the
`$`-prefixed token on the separator characters, collapsing adjacent
separators, never failing), section 4.3 for `locate` (the value of a missing
name is the auto-vivified empty string; the store-mutation half of
auto-vivification cannot change any lookup result, because the inserted
value is the empty string, and is not modelled), and section 4.5 with the
visited-set reframing of section 9 for `translate`: scanning left to right,
a `$` followed by identifier-class characters (letters, digits, `.`, `_`)
delimits one reference; its canonical key is looked up, and the fetched
value is itself translated recursively with the key pushed onto the guard
chain — unless the key is already on the chain, in which case the
*unexpanded stored value* is substituted and recursion stops there.  The
recursion terminates for every store and text: each nesting level adds a
distinct store key to the guard chain (keys outside the store expand to the
empty string at once), which is the measure discharged below. -/

def isIdentChar (c : Char) : Bool := c.isAlpha || c.isDigit || c = '.' || c = '_'

def splitRaw (p : Char → Bool) (l : List Char) : List (List Char) :=
  l.foldr
    (fun c acc =>
      if p c then [] :: acc
      else
        match acc with
        | [] => [[c]]
        | g :: gs => (c :: g) :: gs)
    []

def splitSeps (p : Char → Bool) (l : List Char) : List (List Char) :=
  (splitRaw p l).filter (fun g => decide (g ≠ []))

def extract (ref : List Char) (sep0 sep1 : Char) : List (List Char) :=
  splitSeps (fun c => decide (c = sep0) || (decide (sep1 ≠ Char.ofNat 0) && decide (c = sep1))) ref

def dotJoin : List (List Char) → List Char
  | [] => []
  | [g] => g
  | g :: g2 :: gs => g ++ '.' :: dotJoin (g2 :: gs)

def keyOf (name : List Char) : List Char :=
  dotJoin (extract ('$' :: name) '$' (Char.ofNat 0))

def locate (store : List (List Char × List Char)) (k : List Char) : List Char :=
  match store.find? (fun e => e.1 == k) with
  | some e => e.2
  | none => []

theorem locate_not_mem {store : List (List Char × List Char)} {k : List Char}
    (h : k ∉ store.map Prod.fst) : locate store k = [] := by
  induction store with
  | nil => rfl
  | cons e es ih =>
    rw [List.map_cons, List.mem_cons, not_or] at h
    have hbeq : (e.1 == k) = false := beq_eq_false_iff_ne.2 (Ne.symm h.1)
    rw [locate, List.find?_cons, hbeq]
    exact ih h.2

def translateGo (store : List (List Char × List Char)) (guard : List (List Char)) :
    List Char → List Char
  | [] => []
  | c :: rest =>
    if c = '$' then
      if rest.takeWhile isIdentChar = [] then
        c :: translateGo store guard rest
      else
        (if hg : keyOf (rest.takeWhile isIdentChar) ∈ guard then
           locate store (keyOf (rest.takeWhile isIdentChar))
         else
           translateGo store (keyOf (rest.takeWhile isIdentChar) :: guard)
             (locate store (keyOf (rest.takeWhile isIdentChar)))) ++
          translateGo store guard (rest.dropWhile isIdentChar)
    else
      c :: translateGo store guard rest
termination_by t =>
  (((store.map Prod.fst).toFinset \ guard.toFinset).card, t.length)
decreasing_by
  · apply Prod.Lex.right
    simp
  · by_cases hk : keyOf (rest.takeWhile isIdentChar) ∈ store.map Prod.fst
    · apply Prod.Lex.left
      apply Finset.card_lt_card
      have hsub : (store.map Prod.fst).toFinset \ (keyOf (rest.takeWhile isIdentChar) :: guard).toFinset ⊆
          (store.map Prod.fst).toFinset \ guard.toFinset := by
        rw [List.toFinset_cons]
        exact Finset.sdiff_subset_sdiff (subset_refl _) (Finset.subset_insert _ _)
      refine (Finset.ssubset_iff_of_subset hsub).2 ?_
      refine ⟨keyOf (rest.takeWhile isIdentChar), ?_, ?_⟩
      · exact Finset.mem_sdiff.2 ⟨List.mem_toFinset.2 hk, fun hm => hg (List.mem_toFinset.1 hm)⟩
      · intro hm
        rw [Finset.mem_sdiff, List.toFinset_cons] at hm
        exact hm.2 (Finset.mem_insert_self _ _)
    · have hcard : (store.map Prod.fst).toFinset \ (keyOf (rest.takeWhile isIdentChar) :: guard).toFinset =
          (store.map Prod.fst).toFinset \ guard.toFinset := by
        ext x
        rw [List.toFinset_cons, Finset.mem_sdiff, Finset.mem_sdiff, Finset.mem_insert]
        constructor
        · rintro ⟨hx, hxn⟩
          exact ⟨hx, fun hxg => hxn (Or.inr hxg)⟩
        · rintro ⟨hx, hxg⟩
          refine ⟨hx, ?_⟩
          rintro (hxk | hxg2)
          · subst hxk
            exact hk (List.mem_toFinset.1 hx)
          · exact hxg hxg2
      rw [hcard, locate_not_mem hk]
      apply Prod.Lex.right
      simp
  · apply Prod.Lex.right
    have := (List.dropWhile_sublist (l := rest) isIdentChar).length_le
    simp only [List.length_cons]
    omega
  · apply Prod.Lex.right
    simp

def translate (store : List (List Char × List Char)) (text : List Char) : List Char :=
  translateGo store [] text

theorem translateGo_nil (store : List (List Char × List Char)) (guard : List (List Char)) :
    translateGo store guard [] = [] := by
  conv_lhs => rw [translateGo.eq_def]

theorem translateGo_cons_eq (store : List (List Char × List Char)) (guard : List (List Char))
    (c : Char) (rest : List Char) :
    translateGo store guard (c :: rest) =
      if c = '$' then
        if rest.takeWhile isIdentChar = [] then
          c :: translateGo store guard rest
        else
          (if keyOf (rest.takeWhile isIdentChar) ∈ guard then
             locate store (keyOf (rest.takeWhile isIdentChar))
           else
             translateGo store (keyOf (rest.takeWhile isIdentChar) :: guard)
               (locate store (keyOf (rest.takeWhile isIdentChar)))) ++
            translateGo store guard (rest.dropWhile isIdentChar)
      else
        c :: translateGo store guard rest := by
  conv_lhs => rw [translateGo.eq_def]
  rfl

theorem translateGo_literal {c : Char} (store : List (List Char × List Char))
    (guard : List (List Char)) (rest : List Char) (hc : c ≠ '$') :
    translateGo store guard (c :: rest) = c :: translateGo store guard rest := by
  rw [translateGo_cons_eq, if_neg hc]

theorem translateGo_no_name (store : List (List Char × List Char)) (guard : List (List Char))
    (rest : List Char) (h : rest.takeWhile isIdentChar = []) :
    translateGo store guard ('$' :: rest) = '$' :: translateGo store guard rest := by
  rw [translateGo_cons_eq, if_pos rfl, if_pos h]

theorem translateGo_cycle_step (store : List (List Char × List Char)) (guard : List (List Char))
    (rest : List Char) (hname : rest.takeWhile isIdentChar ≠ [])
    (hmem : keyOf (rest.takeWhile isIdentChar) ∈ guard) :
    translateGo store guard ('$' :: rest) =
      locate store (keyOf (rest.takeWhile isIdentChar)) ++
        translateGo store guard (rest.dropWhile isIdentChar) := by
  rw [translateGo_cons_eq, if_pos rfl, if_neg hname, if_pos hmem]

theorem translateGo_expand_step (store : List (List Char × List Char)) (guard : List (List Char))
    (rest : List Char) (hname : rest.takeWhile isIdentChar ≠ [])
    (hmem : keyOf (rest.takeWhile isIdentChar) ∉ guard) :
    translateGo store guard ('$' :: rest) =
      translateGo store (keyOf (rest.takeWhile isIdentChar) :: guard)
          (locate store (keyOf (rest.takeWhile isIdentChar))) ++
        translateGo store guard (rest.dropWhile isIdentChar) := by
  rw [translateGo_cons_eq, if_pos rfl, if_neg hname, if_neg hmem]


theorem splitRaw_no_sep {p : Char → Bool} :
    ∀ l : List Char, l ≠ [] → (∀ c ∈ l, p c = false) → splitRaw p l = [l] := by
  intro l
  induction l with
  | nil => exact fun h _ => absurd rfl h
  | cons c cs ih =>
    intro _ hall
    cases cs with
    | nil => simp [splitRaw, hall c (by simp)]
    | cons d ds =>
      have hic := ih (by simp) fun x hx => hall x (List.mem_cons_of_mem _ hx)
      unfold splitRaw at hic ⊢
      rw [List.foldr_cons, hic]
      simp [hall c (by simp)]

theorem extract_ident_name {name : List Char} (hne : name ≠ [])
    (hid : ∀ c ∈ name, isIdentChar c = true) :
    extract ('$' :: name) '$' (Char.ofNat 0) = [name] := by
  have hp : ∀ c ∈ name,
      (fun c => decide (c = '$') ||
        (decide ((Char.ofNat 0) ≠ Char.ofNat 0) && decide (c = Char.ofNat 0))) c = false := by
    intro c hc
    have hcid := hid c hc
    have hcne : c ≠ '$' := by
      intro he
      subst he
      exact absurd hcid (by decide)
    simp [hcne]
  unfold extract splitSeps
  have hr : splitRaw
      (fun c => decide (c = '$') ||
        (decide ((Char.ofNat 0) ≠ Char.ofNat 0) && decide (c = Char.ofNat 0)))
      ('$' :: name) =
      [] :: splitRaw
        (fun c => decide (c = '$') ||
          (decide ((Char.ofNat 0) ≠ Char.ofNat 0) && decide (c = Char.ofNat 0))) name := by
    unfold splitRaw
    rw [List.foldr_cons]
    simp
  rw [hr, splitRaw_no_sep name hne hp]
  simp [hne]

theorem keyOf_ident {name : List Char} (hne : name ≠ [])
    (hid : ∀ c ∈ name, isIdentChar c = true) : keyOf name = name := by
  unfold keyOf
  rw [extract_ident_name hne hid]
  rfl

theorem takeWhile_ident_append {name rest : List Char}
    (hid : ∀ c ∈ name, isIdentChar c = true)
    (hrest : rest = [] ∨ ∃ c rs, rest = c :: rs ∧ isIdentChar c = false) :
    (name ++ rest).takeWhile isIdentChar = name ∧
      (name ++ rest).dropWhile isIdentChar = rest := by
  constructor
  · rw [List.takeWhile_append_of_pos hid]
    rcases hrest with rfl | ⟨c, rs, rfl, hc⟩
    · simp
    · rw [List.takeWhile_cons_of_neg (by simp [hc])]
      simp
  · rw [List.dropWhile_append_of_pos hid]
    rcases hrest with rfl | ⟨c, rs, rfl, hc⟩
    · simp
    · rw [List.dropWhile_cons_of_neg (by simp [hc])]

/-- C2: `translate` terminates on every input text and every store — it is
a total function, accepted by the termination checker with the measure
"distinct store keys not yet on the guard chain, then text length" — and
returns a deterministic ("stable, reproducible") string.  A reference whose
canonical key is already on the guard chain (a self- or mutual-reference
cycle) is substituted with its unexpanded stored value instead of recursing
further; on the spec's cyclic pair `a = "$b"`, `b = "$a"`, translating
`"$a"` terminates with the stable result `"$b"`. -/
theorem C2_translate_terminates_cycles_cut :
    (∀ (store : List (List Char × List Char)) (text : List Char),
        ∃ out, translate store text = out) ∧
    (∀ (store : List (List Char × List Char)) (guard : List (List Char)) (name rest : List Char),
        name ≠ [] → (∀ c ∈ name, isIdentChar c = true) →
        (rest = [] ∨ ∃ c rs, rest = c :: rs ∧ isIdentChar c = false) →
        name ∈ guard →
        translateGo store guard ('$' :: (name ++ rest)) =
          locate store name ++ translateGo store guard rest) ∧
    translate [(['a'], ['$', 'b']), (['b'], ['$', 'a'])] ['$', 'a'] = ['$', 'b'] := by
  refine ⟨fun store text => ⟨_, rfl⟩, ?_, ?_⟩
  · intro store guard name rest hne hid hrest hmem
    obtain ⟨htw, hdw⟩ := takeWhile_ident_append hid hrest
    have hkey : keyOf name = name := keyOf_ident hne hid
    have hstep := translateGo_cycle_step store guard (name ++ rest)
      (by rw [htw]; exact hne) (by rw [htw, hkey]; exact hmem)
    rw [htw, hdw, hkey] at hstep
    exact hstep
  · have e1 := translateGo_expand_step [(['a'], ['$', 'b']), (['b'], ['$', 'a'])] [] ['a']
      (by decide) (by decide)
    have e2 := translateGo_expand_step [(['a'], ['$', 'b']), (['b'], ['$', 'a'])] [['a']] ['b']
      (by decide) (by decide)
    have e3 := translateGo_cycle_step [(['a'], ['$', 'b']), (['b'], ['$', 'a'])] [['b'], ['a']]
      ['a'] (by decide) (by decide)
    rw [show ((['a'] : List Char).takeWhile isIdentChar) = ['a'] from by decide,
        show keyOf ['a'] = ['a'] from by decide,
        show ((['a'] : List Char).dropWhile isIdentChar) = [] from by decide,
        show locate [(['a'], ['$', 'b']), (['b'], ['$', 'a'])] ['a'] = ['$', 'b'] from by decide]
      at e1 e3
    rw [show ((['b'] : List Char).takeWhile isIdentChar) = ['b'] from by decide,
        show keyOf ['b'] = ['b'] from by decide,
        show ((['b'] : List Char).dropWhile isIdentChar) = [] from by decide,
        show locate [(['a'], ['$', 'b']), (['b'], ['$', 'a'])] ['b'] = ['$', 'a'] from by decide]
      at e2
    show translateGo [(['a'], ['$', 'b']), (['b'], ['$', 'a'])] [] ['$', 'a'] = ['$', 'b']
    rw [e1, e2, e3, translateGo_nil, translateGo_nil, translateGo_nil]
    simp

/-- Witness for `C2_translate_terminates_cycles_cut` (the cycle-cut clause)
at the cyclic store `a = "$b"`, `b = "$a"`, with `"a"` on the guard chain. -/
theorem C2_translate_terminates_cycles_cut_witness :
    (['a'] : List Char) ≠ [] ∧ (∀ c ∈ (['a'] : List Char), isIdentChar c = true) ∧
    (([] : List Char) = [] ∨ ∃ c rs, ([] : List Char) = c :: rs ∧ isIdentChar c = false) ∧
    (['a'] : List Char) ∈ [(['a'] : List Char)] ∧
    translateGo [(['a'], ['$', 'b']), (['b'], ['$', 'a'])] [['a']] ('$' :: (['a'] ++ [])) =
      locate [(['a'], ['$', 'b']), (['b'], ['$', 'a'])] ['a'] ++
        translateGo [(['a'], ['$', 'b']), (['b'], ['$', 'a'])] [['a']] [] :=
  ⟨by decide, by decide, Or.inl rfl, by decide,
    C2_translate_terminates_cycles_cut.2.1 [(['a'], ['$', 'b']), (['b'], ['$', 'a'])] [['a']]
      ['a'] [] (by decide) (by decide) (Or.inl rfl) (by decide)⟩

end Wire
